import Mathlib

/-!
Verification of the core algorithms of a client-side image batch converter.

The development shallowly embeds the pure parts of the code base:

* `calculateDimensions` — the dimension resolver of `src/core/resizer.ts`
  (fit modes `contain` / `cover` / `fill`, aspect-ratio flag, JS truthiness
  of the optional target fields);
* `calculateCompressionRatio` — the statistics helper of
  `src/core/converter.ts`;
* `getZipPath` — the archive path rule of `src/core/zipDownload.ts`;
* `optimizeSVG` — the SVG normalisation pass of `src/core/svgOptimizer.ts`,
  embedded at the level of character lists, with each of the four regex
  rewrites implemented as a left-to-right scan exactly mirroring the
  JavaScript global-replace semantics;
* the worker protocol of `src/core/workerManager.ts` / `src/core/worker.ts`
  (pending task map, terminal messages, late-message dropping);
* the batch orchestration of `src/main.ts` (`handleConvert`): 2x-variant
  expansion, the pending → processing transition, the sequential conversion
  loop, and the per-file progress/result/error state updates.

JavaScript numbers are modelled by `ℚ` (sizes and dimensions are exact
integers in practice, all arithmetic performed on them is exact rational
arithmetic plus `Math.round`, which is round-half-up and agrees with
Mathlib's `round`).  Asynchronous awaits in the orchestration loop are
modelled by an oracle giving each file its progress milestones and its
terminal outcome; the loop then is a pure fold that threads the file-list
state and accumulates the observable event trace.
-/

namespace ImageConverter

/-! ### Dimension resolver (`src/core/resizer.ts`) -/

/-- Fit modes from `resizer.ts`. -/
inductive FitMode
  | contain
  | cover
  | fill
deriving DecidableEq

/-- Pixel extents, modelled over `ℚ` (JS numbers; integral in practice). -/
structure ImageDimensions where
  width : ℚ
  height : ℚ
deriving DecidableEq

/-- The `{width?, height?}` target argument of `calculateDimensions`. -/
structure TargetSize where
  width : Option ℚ
  height : Option ℚ
deriving DecidableEq

/-- JS truthiness of an optional numeric field: present and nonzero. -/
def truthy : Option ℚ → Bool
  | none => false
  | some x => decide (x ≠ 0)

/-- JS `target.width || original.width`: the default kicks in when the
field is absent or zero (falsy). -/
def orDefault (o : Option ℚ) (d : ℚ) : ℚ :=
  match o with
  | none => d
  | some x => if x = 0 then d else x

/-- `calculateDimensions` from `resizer.ts`: resolve the output size from
the original size, the optional target, the fit mode and the
aspect-ratio flag.  `Math.round` is Mathlib's `round` (round half up). -/
def calculateDimensions (original : ImageDimensions) (target : TargetSize)
    (fit : FitMode) (maintainAspect : Bool) : ImageDimensions :=
  if !truthy target.width && !truthy target.height then
    original
  else
    let targetWidth := orDefault target.width original.width
    let targetHeight := orDefault target.height original.height
    if !maintainAspect then
      ⟨targetWidth, targetHeight⟩
    else
      let ratioOrig := original.width / original.height
      let ratioTarget := targetWidth / targetHeight
      match fit with
      | .contain =>
          if ratioOrig > ratioTarget then
            ⟨targetWidth, (round (targetWidth / ratioOrig) : ℚ)⟩
          else
            ⟨(round (targetHeight * ratioOrig) : ℚ), targetHeight⟩
      | .cover =>
          if ratioOrig > ratioTarget then
            ⟨(round (targetHeight * ratioOrig) : ℚ), targetHeight⟩
          else
            ⟨targetWidth, (round (targetWidth / ratioOrig) : ℚ)⟩
      | .fill => ⟨targetWidth, targetHeight⟩

/-! ### Compression statistics (`src/core/converter.ts`) -/

/-- `calculateCompressionRatio` from `converter.ts`: byte sizes are natural
numbers, the JS float expression is exact rational arithmetic here. -/
def calculateCompressionRatio (originalSize newSize : ℕ) : ℤ :=
  if originalSize = 0 then 0
  else round ((1 - (newSize : ℚ) / (originalSize : ℚ)) * 100)

/-! ### ZIP entry paths (`src/core/zipDownload.ts`) -/

/-- Index of the last occurrence of a character, as JS `lastIndexOf`. -/
def lastIndexOf? (c : Char) : List Char → Option ℕ
  | [] => none
  | a :: rest =>
      match lastIndexOf? c rest with
      | some i => some (i + 1)
      | none => if a = c then some 0 else none

/-- Normalisation step of `getZipPath`: replace every backslash by a forward
slash (`/\\/g`), then strip the leading run of slashes (`/^\/+/`). -/
def normalizeRelPath (rp : List Char) : List Char :=
  (rp.map fun c => if c = '\\' then '/' else c).dropWhile fun c => c = '/'

/-- `getZipPath` from `zipDownload.ts`: no (or empty — JS falsy) relative
path puts the file at the archive root; otherwise the entry goes into the
containing folder of the normalised relative path. -/
def getZipPath (relativePath : Option (List Char)) (newName : List Char) :
    List Char :=
  match relativePath with
  | none => newName
  | some rp =>
      if rp = [] then newName
      else
        match lastIndexOf? '/' (normalizeRelPath rp) with
        | none => newName
        | some i => (normalizeRelPath rp).take (i + 1) ++ newName

/-! ### SVG optimiser (`src/core/svgOptimizer.ts`) -/

/-- Whitespace as matched by the JS regex class `\s` (which is also the
character set stripped by `String.prototype.trim`). -/
def isWs (c : Char) : Bool :=
  c == ' ' || c == '\t' || c == '\n' || c == '\x0B' || c == '\x0C' ||
  c == '\r' || c == '\u00A0' || c == '\u1680' ||
  (decide (0x2000 ≤ c.val) && decide (c.val ≤ 0x200A)) ||
  c == '\u2028' || c == '\u2029' || c == '\u202F' || c == '\u205F' ||
  c == '\u3000' || c == '\uFEFF'

/-- Scan for the first `-->` and return the remainder after it. -/
def dropToCommentClose : List Char → Option (List Char)
  | '-' :: '-' :: '>' :: rest => some rest
  | _ :: rest => dropToCommentClose rest
  | [] => none

/-- One global pass of `/<!--[\s\S]*?-->/g`: at `<!--`, lazily drop up to
and including the first following `-->` and continue after it; an
unterminated `<!--` matches nothing and is kept verbatim (no later opener
can complete either, since no `-->` remains).  The fuel argument only
serves termination; `fuel = l.length` never runs out because every step
consumes at least one character. -/
def removeCommentsF : ℕ → List Char → List Char
  | 0, l => l
  | _ + 1, [] => []
  | fuel + 1, '<' :: '!' :: '-' :: '-' :: rest =>
      (match dropToCommentClose rest with
       | some rest2 => removeCommentsF fuel rest2
       | none => '<' :: '!' :: '-' :: '-' :: rest)
  | fuel + 1, c :: rest => c :: removeCommentsF fuel rest

def removeComments (l : List Char) : List Char := removeCommentsF l.length l

/-- `/\s+/g` replaced by a single space: each maximal whitespace run
becomes one `' '`. -/
def collapseWhitespace : List Char → List Char
  | [] => []
  | [c] => if isWs c then [' '] else [c]
  | c :: d :: rest =>
      if isWs c then
        if isWs d then collapseWhitespace (d :: rest)
        else ' ' :: collapseWhitespace (d :: rest)
      else c :: collapseWhitespace (d :: rest)

/-- After at least one whitespace character: skip further whitespace and
succeed on `<`, returning the remainder after it. -/
def wsGap : List Char → Option (List Char)
  | [] => none
  | c :: rest =>
      if c = '<' then some rest
      else if isWs c then wsGap rest
      else none

/-- The `\s+<` lookahead used by the `/>\s+</g` pass. -/
def wsThenTag : List Char → Option (List Char)
  | [] => none
  | c :: rest => if isWs c then wsGap rest else none

/-- `/>\s+</g` replaced by `><`: drop the whitespace between a closing `>`
and the next opening `<`; scanning resumes after the `<`.  Fuel as in
`removeCommentsF`. -/
def betweenTagsF : ℕ → List Char → List Char
  | 0, l => l
  | _ + 1, [] => []
  | fuel + 1, c :: rest =>
      if c = '>' then
        match wsThenTag rest with
        | some rest2 => '>' :: '<' :: betweenTagsF fuel rest2
        | none => c :: betweenTagsF fuel rest
      else c :: betweenTagsF fuel rest

def removeWhitespaceBetweenTags (l : List Char) : List Char :=
  betweenTagsF l.length l

/-- `String.prototype.trim`. -/
def trimChars (l : List Char) : List Char :=
  ((l.dropWhile isWs).reverse.dropWhile isWs).reverse

/-- `String.prototype.includes`. -/
def occursIn (pat : List Char) : List Char → Bool
  | [] => pat.isEmpty
  | c :: rest => pat.isPrefixOf (c :: rest) || occursIn pat rest

/-- `String.prototype.replace` with a plain-string pattern: replace the
first occurrence only (the replacement text used here holds no `$`
patterns, and the pattern is nonempty). -/
def replaceFirst (pat repl : List Char) : List Char → List Char
  | [] => []
  | c :: rest =>
      if pat.isPrefixOf (c :: rest) then repl ++ (c :: rest).drop pat.length
      else c :: replaceFirst pat repl rest

def xmlnsAttr : List Char := "xmlns=\"http://www.w3.org/2000/svg\"".data

def svgOpen : List Char := "<svg".data

def svgOpenWithXmlns : List Char :=
  "<svg xmlns=\"http://www.w3.org/2000/svg\"".data

/-- Final step of `optimizeSVG`: insert the xmlns attribute after the first
`<svg` unless the attribute string already occurs somewhere. -/
def ensureXmlns (l : List Char) : List Char :=
  if occursIn xmlnsAttr l then l
  else replaceFirst svgOpen svgOpenWithXmlns l

/-- `optimizeSVG` from `svgOptimizer.ts`: empty in, empty out; otherwise
remove comments, collapse whitespace runs, remove whitespace between
tags, trim, and ensure the xmlns attribute. -/
def optimizeSVG (s : String) : String :=
  if s.data = [] then ""
  else
    ⟨ensureXmlns (trimChars (removeWhitespaceBetweenTags
        (collapseWhitespace (removeComments s.data))))⟩

/-- Two adjacent characters may not both be whitespace. -/
def wsSep (a b : Char) : Prop := ¬(isWs a = true ∧ isWs b = true)

instance : DecidableRel wsSep := fun a b =>
  decidable_of_iff (¬(isWs a = true ∧ isWs b = true)) Iff.rfl

/-- Executable check for `List.Chain' wsSep`. -/
def wsChainOk : List Char → Bool
  | [] => true
  | [_] => true
  | a :: b :: rest => !(isWs a && isWs b) && wsChainOk (b :: rest)

/-- Invariant enjoyed by `collapseWhitespace` output: every whitespace
character is a plain space, and no two adjacent characters are both
whitespace. -/
def wsNormal (l : List Char) : Prop :=
  (∀ c ∈ l, isWs c = true → c = ' ') ∧ List.Chain' wsSep l

/-- No whitespace remains between a closing `>` and an opening `<`
(formulated for lists whose whitespace runs have length one). -/
def noGap (l : List Char) : Prop :=
  ∀ c : Char, isWs c = true → ¬ ['>', c, '<'] <:+: l

/-- Neither end of the list is whitespace. -/
def isTrimmed (l : List Char) : Prop :=
  (∀ c ∈ l.head?, isWs c = false) ∧ (∀ c ∈ l.getLast?, isWs c = false)

/-! ### Worker protocol and batch orchestration
(`src/core/workerManager.ts`, `src/core/worker.ts`, `src/main.ts`)

The asynchronous parts are embedded as pure state transformers: one
conversion's observable behaviour (its progress milestones and terminal
outcome) is an oracle value, and the orchestrator's sequential `await`
loop becomes a fold that threads the file-list state and accumulates the
emitted event trace in order. -/

/-- `ImageFile.status` in `types.ts`. -/
inductive FileStatus
  | pending
  | processing
  | done
  | error
deriving DecidableEq

/-- The parts of a `ConvertedImage` the orchestration logic inspects
(blob, data URL and dimensions are opaque to it). -/
structure ConvertedImageModel where
  newName : String
  originalSize : ℕ
  newSize : ℕ
deriving DecidableEq

/-- `Partial<ConversionOptions>` as built for 2x variants: a `none` field
is an absent key, which an object spread will not override. -/
structure CustomOptions where
  width : Option ℕ
  height : Option ℕ
  generate2x : Option Bool
deriving DecidableEq

/-- The global-settings fields the orchestration logic reads. -/
structure GlobalSettings where
  width : Option ℕ
  height : Option ℕ
  generate2x : Bool
deriving DecidableEq

/-- JS truthiness of an optional pixel count. -/
def truthyN : Option ℕ → Bool
  | none => false
  | some n => decide (n ≠ 0)

/-- The `ImageFile` record tracked by `main.ts` (the `file` blob itself is
opaque; `name` is the file's name used for labels). -/
structure FileRec where
  id : String
  name : String
  relativePath : Option String
  status : FileStatus
  progress : ℕ
  customOptions : Option CustomOptions
  label : Option String
  result : Option ConvertedImageModel
  error : Option String
deriving DecidableEq

/-- Label of a 2x variant: `@2x` inserted before the last `.` of the file
name (`lastIndexOf`), or appended when there is none. -/
def insertAt2xLabel (name : String) : String :=
  match lastIndexOf? '.' name.data with
  | none => name ++ "@2x"
  | some i => ⟨name.data.take i ++ '@' :: '2' :: 'x' :: name.data.drop i⟩

/-- `if (baseWidth) opts.width = baseWidth * 2`: the key is only added
when the settings value is truthy. -/
def doubleIfSet (o : Option ℕ) : Option ℕ :=
  match o with
  | none => none
  | some w => if w = 0 then none else some (2 * w)

/-- The synthesized 2x-variant record of `handleConvert`. -/
def mkVariant (settings : GlobalSettings) (f : FileRec) : FileRec :=
  { f with
    id := f.id ++ "-2x"
    label := some (insertAt2xLabel f.name)
    customOptions :=
      some ⟨doubleIfSet settings.width, doubleIfSet settings.height, some false⟩
    status := FileStatus.pending
    progress := 0
    result := none
    error := none }

/-- A record is expanded when it is pending and carries no custom options. -/
def qualifies2x (f : FileRec) : Bool :=
  decide (f.status = FileStatus.pending) && decide (f.customOptions = none)

/-- The 2x expansion phase: one variant is appended per qualifying record,
in order, after all existing records. -/
def expand2x (settings : GlobalSettings) (files : List FileRec) :
    List FileRec :=
  files ++ (files.filter qualifies2x).map (mkVariant settings)

/-- The expansion runs only when `generate2x` is enabled. -/
def expandPhase (settings : GlobalSettings) (files : List FileRec) :
    List FileRec :=
  if settings.generate2x then expand2x settings files else files

/-- `{...settings, ...customOptions}`: a present custom key overrides. -/
def mergeOptions (s : GlobalSettings) (c : CustomOptions) : GlobalSettings where
  width := match c.width with
    | some w => some w
    | none => s.width
  height := match c.height with
    | some h => some h
    | none => s.height
  generate2x := match c.generate2x with
    | some b => b
    | none => s.generate2x

/-- Effective options of one record inside the conversion loop: merge the
global settings with the record's custom options; for a custom record
whose effective width and height are both falsy, defer to the source's
natural dimensions doubled. -/
def resolveEffective (s : GlobalSettings) (f : FileRec)
    (naturalW naturalH : ℕ) : GlobalSettings :=
  match f.customOptions with
  | none => s
  | some c =>
      let eff := mergeOptions s c
      if !truthyN eff.width && !truthyN eff.height then
        { eff with width := some (2 * naturalW), height := some (2 * naturalH) }
      else eff

/-- Observable behaviour of one conversion: the progress values reported
to the callback, then a terminal result or error. -/
structure Outcome where
  progresses : List ℕ
  final : Except String ConvertedImageModel

/-- Events observable from the orchestrator during a batch. -/
inductive ConvEvent
  | progress (id : String) (p : ℕ)
  | completed (id : String)
  | failed (id : String) (msg : String)
deriving DecidableEq

def eventId : ConvEvent → String
  | .progress i _ => i
  | .completed i => i
  | .failed i _ => i

/-- `updateFileProgress` from `main.ts`. -/
def updateFileProgress (id : String) (p : ℕ) (files : List FileRec) :
    List FileRec :=
  files.map fun f => if f.id = id then { f with progress := p } else f

/-- `updateFileResult` from `main.ts`. -/
def updateFileResult (id : String) (r : ConvertedImageModel)
    (files : List FileRec) : List FileRec :=
  files.map fun f =>
    if f.id = id then
      { f with status := FileStatus.done, progress := 100, result := some r }
    else f

/-- `updateFileError` from `main.ts`: status and message change, the
progress field is not touched. -/
def updateFileError (id : String) (msg : String) (files : List FileRec) :
    List FileRec :=
  files.map fun f =>
    if f.id = id then { f with status := FileStatus.error, error := some msg }
    else f

/-- The terminal event a file's conversion produces. -/
def terminalEvent (oracle : FileRec → Outcome) (f : FileRec) : ConvEvent :=
  match (oracle f).final with
  | .ok _ => ConvEvent.completed f.id
  | .error e => ConvEvent.failed f.id e

/-- All events one file's conversion produces, in order. -/
def eventsFor (oracle : FileRec → Outcome) (f : FileRec) : List ConvEvent :=
  (oracle f).progresses.map (ConvEvent.progress f.id) ++
    [terminalEvent oracle f]

/-- State change performed while one file converts: the progress callbacks
fire in order, then the terminal update runs. -/
def applyOutcome (oracle : FileRec → Outcome) (f : FileRec)
    (st : List FileRec) : List FileRec :=
  let st1 := (oracle f).progresses.foldl
    (fun s p => updateFileProgress f.id p s) st
  match (oracle f).final with
  | .ok r => updateFileResult f.id r st1
  | .error e => updateFileError f.id e st1

/-- The sequential conversion loop of `handleConvert`: iterate over the
snapshot list, skip records that are not `processing`, and fully settle
each record (all its progress events and its terminal event) before the
next one starts. -/
def runLoop (oracle : FileRec → Outcome) :
    List FileRec → List FileRec → List FileRec × List ConvEvent
  | [], st => (st, [])
  | f :: rest, st =>
      if f.status = FileStatus.processing then
        let res := runLoop oracle rest (applyOutcome oracle f st)
        (res.1, eventsFor oracle f ++ res.2)
      else runLoop oracle rest st

/-- All pending records become processing with progress reset to 0. -/
def markProcessing (files : List FileRec) : List FileRec :=
  files.map fun f =>
    if f.status = FileStatus.pending then
      { f with status := FileStatus.processing, progress := 0 }
    else f

/-- `handleConvert` from `main.ts`: expand 2x variants, mark the snapshot
processing, then convert sequentially. -/
def handleConvert (oracle : FileRec → Outcome) (settings : GlobalSettings)
    (files : List FileRec) : List FileRec × List ConvEvent :=
  runLoop oracle (markProcessing (expandPhase settings files))
    (markProcessing (expandPhase settings files))

/-- The trace the loop emits, derived from the snapshot alone. -/
def traceOf (oracle : FileRec → Outcome) : List FileRec → List ConvEvent
  | [] => []
  | f :: rest =>
      (if f.status = FileStatus.processing then eventsFor oracle f else []) ++
        traceOf oracle rest

/-- Worker-side messages (`worker.ts`). -/
inductive WorkerMsg
  | progress (id : String) (p : ℕ)
  | result (id : String) (r : ConvertedImageModel)
  | error (id : String) (msg : String)
deriving DecidableEq

def msgId : WorkerMsg → String
  | .progress i _ => i
  | .result i _ => i
  | .error i _ => i

def isTerminal : WorkerMsg → Bool
  | .progress _ _ => false
  | .result _ _ => true
  | .error _ _ => true

/-- The messages the worker posts for one convert request: its progress
milestones, then exactly one `result` (the `try` body ran to completion)
or one `error` (the `catch` posted the failure). -/
def workerRun (id : String) (out : Outcome) : List WorkerMsg :=
  out.progresses.map (WorkerMsg.progress id) ++
    [match out.final with
     | .ok r => WorkerMsg.result id r
     | .error e => WorkerMsg.error id e]

/-- What the manager keeps per pending task (resolve/reject callbacks are
actions here, the file data is opaque). -/
structure WorkerTask where
  fileName : String
  fileSize : ℕ
deriving DecidableEq

/-- The visible effect of one `handleMessage` call. -/
inductive ManagerAction
  | ignored
  | progressed (id : String) (p : ℕ)
  | resolved (id : String) (r : ConvertedImageModel)
  | rejected (id : String) (msg : String)
deriving DecidableEq

/-- `tasks.delete(id)`: the pending map keeps unique keys, so deletion is
removing every pair with that key from the association list. -/
def removeTask (id : String) (tasks : List (String × WorkerTask)) :
    List (String × WorkerTask) :=
  tasks.filter fun t => !(t.1 == id)

/-- `WorkerManager.handleMessage`: a message whose id has no pending task
is dropped; a progress message invokes the callback; a terminal message
deletes the task entry and then settles it. -/
def handleMessage (tasks : List (String × WorkerTask)) (m : WorkerMsg) :
    List (String × WorkerTask) × ManagerAction :=
  match List.lookup (msgId m) tasks with
  | none => (tasks, ManagerAction.ignored)
  | some _ =>
      match m with
      | .progress i p => (tasks, ManagerAction.progressed i p)
      | .result i r => (removeTask i tasks, ManagerAction.resolved i r)
      | .error i e => (removeTask i tasks, ManagerAction.rejected i e)

/-! ### Theorems about the dimension resolver and the statistics helper -/

/-- Rounding moves a rational by at most one (in fact at most a half). -/
theorem round_within_one (x : ℚ) : |((round x : ℤ) : ℚ) - x| ≤ 1 := by
  rw [abs_sub_comm]
  exact (abs_sub_round x).trans (by norm_num)

/-- A falsy optional field defaults. -/
theorem orDefault_of_not_truthy {o : Option ℚ} {d : ℚ} (h : truthy o = false) :
    orDefault o d = d := by
  cases o with
  | none => rfl
  | some x =>
      simp only [truthy, decide_eq_false_iff_not, not_not] at h
      simp [orDefault, h]

/-- C1: with `maintainAspectRatio = false` and at least one target field
supplied (truthy), `calculateDimensions` returns exactly the effective
target — each supplied value verbatim, a missing one defaulted to the
original's corresponding dimension — for every fit mode. -/
theorem c1_exact_target_without_aspect (o : ImageDimensions) (t : TargetSize)
    (fit : FitMode) (h : truthy t.width = true ∨ truthy t.height = true) :
    calculateDimensions o t fit false =
      ⟨orDefault t.width o.width, orDefault t.height o.height⟩ := by
  unfold calculateDimensions
  rcases h with h | h <;> simp [h]

theorem c1_witness :
    (truthy (some (600:ℚ)) = true ∨ truthy (some (605:ℚ)) = true) ∧
    calculateDimensions ⟨1000, 500⟩ ⟨some 600, some 605⟩ FitMode.contain false =
      ⟨600, 605⟩ := by
  have h : truthy (some (600:ℚ)) = true ∨ truthy (some (605:ℚ)) = true :=
    Or.inl (by simp [truthy])
  refine ⟨h, (c1_exact_target_without_aspect ⟨1000, 500⟩ ⟨some 600, some 605⟩ FitMode.contain h).trans ?_⟩
  simp only [orDefault]
  norm_num

/-- C2: with `maintainAspectRatio = true`, `contain` constrains by width
(`⟨effW, round (effW / originalRatio)⟩`) exactly when the original ratio
exceeds the target ratio and by height (`⟨round (effH * originalRatio),
effH⟩`) otherwise, while `cover` makes the inverted choice. -/
theorem c2_contain_cover_formulas (o : ImageDimensions) (t : TargetSize)
    (h : truthy t.width = true ∨ truthy t.height = true) :
    (calculateDimensions o t FitMode.contain true =
      if o.width / o.height >
          orDefault t.width o.width / orDefault t.height o.height then
        ⟨orDefault t.width o.width,
         (round (orDefault t.width o.width / (o.width / o.height)) : ℚ)⟩
      else
        ⟨(round (orDefault t.height o.height * (o.width / o.height)) : ℚ),
         orDefault t.height o.height⟩) ∧
    (calculateDimensions o t FitMode.cover true =
      if o.width / o.height >
          orDefault t.width o.width / orDefault t.height o.height then
        ⟨(round (orDefault t.height o.height * (o.width / o.height)) : ℚ),
         orDefault t.height o.height⟩
      else
        ⟨orDefault t.width o.width,
         (round (orDefault t.width o.width / (o.width / o.height)) : ℚ)⟩) := by
  unfold calculateDimensions
  rcases h with h | h <;> simp [h]

theorem c2_witness :
    (truthy (some (500:ℚ)) = true ∨ truthy (some (500:ℚ)) = true) ∧
    calculateDimensions ⟨1000, 500⟩ ⟨some 500, some 500⟩ FitMode.contain true =
      ⟨500, 250⟩ ∧
    calculateDimensions ⟨1000, 500⟩ ⟨some 500, some 500⟩ FitMode.cover true =
      ⟨1000, 500⟩ := by
  have h : truthy (some (500:ℚ)) = true ∨ truthy (some (500:ℚ)) = true :=
    Or.inl (by simp [truthy])
  have h2 := c2_contain_cover_formulas ⟨1000, 500⟩ ⟨some 500, some 500⟩ h
  refine ⟨h, h2.1.trans ?_, h2.2.trans ?_⟩ <;>
    · simp only [orDefault]
      norm_num [round_eq]

/-- C7: with `maintainAspectRatio = true` and fit `contain` or `cover`, the
resolved size keeps one side equal to the effective target and the other
within one pixel of the exact ratio-preserving value. -/
theorem c7_ratio_tolerance (o : ImageDimensions) (t : TargetSize)
    (fit : FitMode) (hfit : fit ≠ FitMode.fill)
    (hw : 0 < o.width) (hh : 0 < o.height) :
    ((calculateDimensions o t fit true).width = orDefault t.width o.width ∧
      |(calculateDimensions o t fit true).height -
        orDefault t.width o.width * o.height / o.width| ≤ 1) ∨
    ((calculateDimensions o t fit true).height = orDefault t.height o.height ∧
      |(calculateDimensions o t fit true).width -
        orDefault t.height o.height * o.width / o.height| ≤ 1) := by
  have hw' : o.width ≠ 0 := ne_of_gt hw
  have hh' : o.height ≠ 0 := ne_of_gt hh
  have hdiv : ∀ a : ℚ, a / (o.width / o.height) = a * o.height / o.width := by
    intro a
    rw [div_div_eq_mul_div]
  have hmul : ∀ a : ℚ, a * (o.width / o.height) = a * o.width / o.height := by
    intro a
    rw [mul_div_assoc]
  unfold calculateDimensions
  by_cases h0 : (!truthy t.width && !truthy t.height) = true
  · -- no target at all: the original is returned and the ratio is exact
    simp only [Bool.and_eq_true, Bool.not_eq_true'] at h0
    left
    rw [if_pos (by simp [h0.1, h0.2]), orDefault_of_not_truthy h0.1]
    refine ⟨rfl, ?_⟩
    rw [mul_div_cancel_left₀ _ hw', sub_self, abs_zero]
    norm_num
  · rw [if_neg h0]
    cases fit with
    | fill => exact absurd rfl hfit
    | contain =>
        by_cases hr :
            o.width / o.height >
              orDefault t.width o.width / orDefault t.height o.height
        · left
          simp only [Bool.not_true, Bool.false_eq_true, if_false, if_pos hr]
          exact ⟨by trivial, by rw [hdiv]; exact round_within_one _⟩
        · right
          simp only [Bool.not_true, Bool.false_eq_true, if_false, if_neg hr]
          exact ⟨by trivial, by rw [hmul]; exact round_within_one _⟩
    | cover =>
        by_cases hr :
            o.width / o.height >
              orDefault t.width o.width / orDefault t.height o.height
        · right
          simp only [Bool.not_true, Bool.false_eq_true, if_false, if_pos hr]
          exact ⟨by trivial, by rw [hmul]; exact round_within_one _⟩
        · left
          simp only [Bool.not_true, Bool.false_eq_true, if_false, if_neg hr]
          exact ⟨by trivial, by rw [hdiv]; exact round_within_one _⟩

theorem c7_witness :
    FitMode.contain ≠ FitMode.fill ∧ (0:ℚ) < 1000 ∧ (0:ℚ) < 500 ∧
    (((calculateDimensions ⟨1000, 500⟩ ⟨some 500, some 500⟩ FitMode.contain
          true).width = orDefault (some 500) 1000 ∧
      |(calculateDimensions ⟨1000, 500⟩ ⟨some 500, some 500⟩ FitMode.contain
          true).height - orDefault (some 500) 1000 * 500 / 1000| ≤ 1) ∨
    ((calculateDimensions ⟨1000, 500⟩ ⟨some 500, some 500⟩ FitMode.contain
          true).height = orDefault (some 500) 500 ∧
      |(calculateDimensions ⟨1000, 500⟩ ⟨some 500, some 500⟩ FitMode.contain
          true).width - orDefault (some 500) 500 * 1000 / 500| ≤ 1)) :=
  ⟨by decide, by norm_num, by norm_num,
   c7_ratio_tolerance ⟨1000, 500⟩ ⟨some 500, some 500⟩ FitMode.contain
     (by decide) (by norm_num) (by norm_num)⟩

/-- C9: the compression ratio is `round ((1 - newSize / originalSize) * 100)`
for a nonzero original size, `0` for a zero original size, and takes the
documented values on the three concrete scenarios. -/
theorem c9_compression_ratio :
    (∀ originalSize newSize : ℕ, originalSize ≠ 0 →
       calculateCompressionRatio originalSize newSize =
         round ((1 - (newSize : ℚ) / (originalSize : ℚ)) * 100)) ∧
    calculateCompressionRatio 1000 500 = 50 ∧
    calculateCompressionRatio 1000 1500 = -50 ∧
    calculateCompressionRatio 0 100 = 0 := by
  refine ⟨fun o n ho => ?_, ?_, ?_, ?_⟩
  · simp [calculateCompressionRatio, ho]
  · simp only [calculateCompressionRatio]
    norm_num [round_eq]
  · simp only [calculateCompressionRatio]
    norm_num [round_eq]
  · simp [calculateCompressionRatio]

theorem c9_witness :
    (1000 : ℕ) ≠ 0 ∧
    calculateCompressionRatio 1000 250 =
      round ((1 - (250 : ℚ) / (1000 : ℚ)) * 100) :=
  ⟨by norm_num, c9_compression_ratio.1 1000 250 (by norm_num)⟩

/-! ### Theorems about ZIP entry paths -/

theorem lastIndexOf?_eq_none_iff (c : Char) (l : List Char) :
    lastIndexOf? c l = none ↔ c ∉ l := by
  induction l with
  | nil => simp [lastIndexOf?]
  | cons a rest ih =>
      simp only [lastIndexOf?, List.mem_cons]
      cases h : lastIndexOf? c rest with
      | some i =>
          have hmem : c ∈ rest := by
            by_contra hc
            rw [← ih] at hc
            rw [hc] at h
            cases h
          simp [hmem]
      | none =>
          have hrest : c ∉ rest := ih.mp h
          by_cases hac : a = c
          · simp [hac]
          · simp [hac, hrest, Ne.symm hac]

theorem lastIndexOf?_decomp {c : Char} {l : List Char} {i : ℕ}
    (h : lastIndexOf? c l = some i) :
    ∃ a b, l = a ++ c :: b ∧ a.length = i ∧ c ∉ b := by
  induction l generalizing i with
  | nil => cases h
  | cons x rest ih =>
      simp only [lastIndexOf?] at h
      cases hr : lastIndexOf? c rest with
      | some j =>
          rw [hr] at h
          injection h with h'
          obtain ⟨a, b, hl, hlen, hb⟩ := ih hr
          refine ⟨x :: a, b, by simp [hl], ?_, hb⟩
          simp [hlen, ← h']
      | none =>
          rw [hr] at h
          by_cases hxc : x = c
          · rw [if_pos hxc] at h
            injection h with h'
            exact ⟨[], rest, by simp [hxc], by simp [← h'],
              (lastIndexOf?_eq_none_iff c rest).mp hr⟩
          · rw [if_neg hxc] at h
            cases h

theorem lastIndexOf?_append (c : Char) (a b : List Char) (hb : c ∉ b) :
    lastIndexOf? c (a ++ c :: b) = some a.length := by
  induction a with
  | nil =>
      simp only [List.nil_append, lastIndexOf?,
        (lastIndexOf?_eq_none_iff c b).mpr hb]
      simp
  | cons x rest ih =>
      simp [lastIndexOf?, ih]

/-- Taking one past the marker keeps the prefix and the marker. -/
theorem take_length_succ_append (a : List Char) (c : Char) (b : List Char) :
    (a ++ c :: b).take (a.length + 1) = a ++ [c] := by
  induction a with
  | nil => rfl
  | cons x a ih => simp [ih]

/-- C8: the ZIP entry path is the output filename alone when there is no
relative path or the normalised relative path holds no slash; otherwise it
is the normalised relative path truncated just after its last slash,
followed by the output filename. -/
theorem c8_zip_entry_path (rp : Option (List Char)) (newName : List Char) :
    (rp = none → getZipPath rp newName = newName) ∧
    (∀ l, rp = some l →
      ('/' ∉ normalizeRelPath l → getZipPath rp newName = newName) ∧
      ('/' ∈ normalizeRelPath l →
        ∃ folder rest, normalizeRelPath l = folder ++ rest ∧
          folder.getLast? = some '/' ∧ '/' ∉ rest ∧
          getZipPath rp newName = folder ++ newName)) := by
  constructor
  · intro h
    rw [h]
    rfl
  · intro l hl
    subst hl
    constructor
    · intro hmem
      by_cases hnil : l = []
      · simp [getZipPath, hnil]
      · simp [getZipPath, hnil, (lastIndexOf?_eq_none_iff '/' _).mpr hmem]
    · intro hmem
      have hnil : l ≠ [] := by
        rintro rfl
        simp [normalizeRelPath] at hmem
      cases hfind : lastIndexOf? '/' (normalizeRelPath l) with
      | none => exact absurd hmem ((lastIndexOf?_eq_none_iff '/' _).mp hfind)
      | some i =>
          obtain ⟨a, b, hdec, hlen, hb⟩ := lastIndexOf?_decomp hfind
          refine ⟨a ++ ['/'], b, by rw [hdec]; simp, by simp, hb, ?_⟩
          simp only [getZipPath, if_neg hnil, hfind]
          rw [hdec, ← hlen, take_length_succ_append]

theorem c8_witness :
    '/' ∈ normalizeRelPath ['d', 'i', 'r', '/', 'f', '.', 'p'] ∧
    (∃ folder rest,
      normalizeRelPath ['d', 'i', 'r', '/', 'f', '.', 'p'] = folder ++ rest ∧
      folder.getLast? = some '/' ∧ '/' ∉ rest ∧
      getZipPath (some ['d', 'i', 'r', '/', 'f', '.', 'p']) ['n', '.', 'w'] =
        folder ++ ['n', '.', 'w']) :=
  ⟨by decide,
   ((c8_zip_entry_path (some ['d', 'i', 'r', '/', 'f', '.', 'p'])
       ['n', '.', 'w']).2 _ rfl).2 (by decide)⟩

/-! ### Theorems about the SVG optimiser -/

theorem wsNormal_nil : wsNormal [] := ⟨by simp, List.chain'_nil⟩

theorem wsNormal_cons {c : Char} {l : List Char} (h : wsNormal (c :: l)) :
    wsNormal l :=
  ⟨fun x hx hw => h.1 x (List.mem_cons_of_mem _ hx) hw,
   (List.chain'_cons'.mp h.2).2⟩

theorem wsNormal_mono {l x : List Char} (h : wsNormal l) (hx : x <:+: l) :
    wsNormal x :=
  ⟨fun c hc hw => h.1 c (hx.subset hc) hw, List.Chain'.infix h.2 hx⟩

theorem noGap_nil : noGap [] := by
  intro c _ hinf
  have := hinf.length_le
  simp at this

theorem noGap_of_cons {a : Char} {l : List Char} (h : noGap (a :: l)) :
    noGap l :=
  fun c hc hinf => h c hc (hinf.trans (List.suffix_cons a l).isInfix)

theorem noGap_infix {l x : List Char} (h : noGap l) (hx : x <:+: l) :
    noGap x :=
  fun c hc hinf => h c hc (hinf.trans hx)

theorem collapseWhitespace_head? :
    ∀ l : List Char, (collapseWhitespace l).head? =
      l.head?.map fun c => if isWs c then ' ' else c
  | [] => rfl
  | [c] => by by_cases h : isWs c <;> simp [collapseWhitespace, h]
  | c :: d :: rest => by
      have ih := collapseWhitespace_head? (d :: rest)
      by_cases hc : isWs c <;> by_cases hd : isWs d <;>
        simp [collapseWhitespace, hc, hd, ih]

theorem collapseWhitespace_wsNormal : ∀ l : List Char,
    wsNormal (collapseWhitespace l)
  | [] => wsNormal_nil
  | [c] => by
      by_cases h : isWs c
      · simp only [collapseWhitespace, if_pos h]
        exact ⟨by simp, List.chain'_singleton _⟩
      · simp only [collapseWhitespace, if_neg h]
        exact ⟨by simp [h], List.chain'_singleton _⟩
  | c :: d :: rest => by
      have ih := collapseWhitespace_wsNormal (d :: rest)
      have ihh := collapseWhitespace_head? (d :: rest)
      by_cases hc : isWs c
      · by_cases hd : isWs d
        · simpa only [collapseWhitespace, if_pos hc, if_pos hd] using ih
        · simp only [collapseWhitespace, if_pos hc, if_neg hd]
          refine ⟨?_, ?_⟩
          · intro x hx hw
            rcases List.mem_cons.mp hx with rfl | hx
            · rfl
            · exact ih.1 x hx hw
          · refine List.chain'_cons'.mpr ⟨?_, ih.2⟩
            intro y hy
            rw [ihh] at hy
            simp only [List.head?_cons, Option.map_some', Option.mem_def,
              Option.some.injEq] at hy
            intro hcon
            rw [← hy, if_neg (by simp [hd])] at hcon
            exact absurd hcon.2 (by simp [hd])
      · simp only [collapseWhitespace, if_neg hc]
        refine ⟨?_, ?_⟩
        · intro x hx hw
          rcases List.mem_cons.mp hx with rfl | hx
          · exact absurd hw (by simp [hc])
          · exact ih.1 x hx hw
        · refine List.chain'_cons'.mpr ⟨?_, ih.2⟩
          intro y _ hcon
          exact absurd hcon.1 (by simp [hc])

theorem collapseWhitespace_id : ∀ l : List Char, wsNormal l →
    collapseWhitespace l = l
  | [], _ => rfl
  | [c], h => by
      by_cases hw : isWs c
      · have hc : c = ' ' := h.1 c (by simp) hw
        simp [collapseWhitespace, hw, hc]
      · simp [collapseWhitespace, hw]
  | c :: d :: rest, h => by
      have ih := collapseWhitespace_id (d :: rest) (wsNormal_cons h)
      by_cases hc : isWs c
      · have hsep : wsSep c d := (List.chain'_cons.mp h.2).1
        have hd : isWs d = false := by
          by_contra hd'
          exact hsep ⟨hc, by simpa using hd'⟩
        have hcs : c = ' ' := h.1 c (by simp) hc
        simp [collapseWhitespace, hc, hd, ih, hcs]
      · simp [collapseWhitespace, hc, ih]

theorem wsGap_decomp : ∀ {l r : List Char}, wsGap l = some r →
    ∃ w, l = w ++ '<' :: r ∧ ∀ c ∈ w, isWs c = true := by
  intro l
  induction l with
  | nil => intro r h; cases h
  | cons c rest ih =>
      intro r h
      simp only [wsGap] at h
      by_cases hlt : c = '<'
      · rw [if_pos hlt] at h
        injection h with h'
        exact ⟨[], by simp [hlt, h'], by simp⟩
      · rw [if_neg hlt] at h
        by_cases hw : isWs c
        · rw [if_pos hw] at h
          obtain ⟨w, hw1, hw2⟩ := ih h
          refine ⟨c :: w, by simp [hw1], ?_⟩
          intro x hx
          rcases List.mem_cons.mp hx with rfl | hx
          · exact hw
          · exact hw2 x hx
        · rw [if_neg hw] at h
          cases h

theorem wsThenTag_decomp {l r : List Char} (h : wsThenTag l = some r) :
    ∃ w, l = w ++ '<' :: r ∧ w ≠ [] ∧ ∀ c ∈ w, isWs c = true := by
  cases l with
  | nil => cases h
  | cons c rest =>
      simp only [wsThenTag] at h
      by_cases hw : isWs c
      · rw [if_pos hw] at h
        obtain ⟨w, h1, h2⟩ := wsGap_decomp h
        refine ⟨c :: w, by simp [h1], by simp, ?_⟩
        intro x hx
        rcases List.mem_cons.mp hx with rfl | hx
        · exact hw
        · exact h2 x hx
      · rw [if_neg hw] at h
        cases h

theorem betweenTagsF_head? (fuel : ℕ) (l : List Char) :
    (betweenTagsF fuel l).head? = l.head? := by
  cases fuel with
  | zero => rfl
  | succ f =>
      cases l with
      | nil => rfl
      | cons c rest =>
          simp only [betweenTagsF]
          by_cases hgt : c = '>'
          · rw [if_pos hgt]
            cases h : wsThenTag rest <;> simp [hgt]
          · rw [if_neg hgt]
            rfl

theorem betweenTagsF_wsNormal : ∀ (fuel : ℕ) (l : List Char), wsNormal l →
    wsNormal (betweenTagsF fuel l)
  | 0, _, h => h
  | _ + 1, [], _ => wsNormal_nil
  | fuel + 1, c :: rest, h => by
      by_cases hgt : c = '>'
      · cases hm : wsThenTag rest with
        | some r2 =>
            obtain ⟨w, hw1, _, _⟩ := wsThenTag_decomp hm
            have hsuf : ('<' :: r2) <:+ rest := ⟨w, hw1.symm⟩
            have hr2 : wsNormal r2 :=
              wsNormal_cons (wsNormal_mono (wsNormal_cons h) hsuf.isInfix)
            have ih := betweenTagsF_wsNormal fuel r2 hr2
            simp only [betweenTagsF, if_pos hgt, hm]
            refine ⟨?_, ?_⟩
            · intro x hx hxw
              rcases List.mem_cons.mp hx with rfl | hx
              · exact absurd hxw (by decide)
              · rcases List.mem_cons.mp hx with rfl | hx
                · exact absurd hxw (by decide)
                · exact ih.1 x hx hxw
            · refine List.chain'_cons'.mpr ⟨?_, List.chain'_cons'.mpr ⟨?_, ih.2⟩⟩
              · intro y hy hcon
                exact absurd hcon.1 (by decide)
              · intro y _ hcon
                exact absurd hcon.1 (by decide)
        | none =>
            have ih := betweenTagsF_wsNormal fuel rest (wsNormal_cons h)
            simp only [betweenTagsF, if_pos hgt, hm]
            refine ⟨?_, List.chain'_cons'.mpr ⟨?_, ih.2⟩⟩
            · intro x hx hxw
              rcases List.mem_cons.mp hx with rfl | hx
              · exact h.1 x (by simp) hxw
              · exact ih.1 x hx hxw
            · intro y hy
              rw [betweenTagsF_head? fuel rest] at hy
              exact (List.chain'_cons'.mp h.2).1 y hy
      · have ih := betweenTagsF_wsNormal fuel rest (wsNormal_cons h)
        simp only [betweenTagsF, if_neg hgt]
        refine ⟨?_, List.chain'_cons'.mpr ⟨?_, ih.2⟩⟩
        · intro x hx hxw
          rcases List.mem_cons.mp hx with rfl | hx
          · exact h.1 x (by simp) hxw
          · exact ih.1 x hx hxw
        · intro y hy
          rw [betweenTagsF_head? fuel rest] at hy
          exact (List.chain'_cons'.mp h.2).1 y hy

theorem betweenTagsF_noGap : ∀ (fuel : ℕ) (l : List Char), l.length ≤ fuel →
    wsNormal l → noGap (betweenTagsF fuel l)
  | 0, l, hlen, _ => by
      have : l = [] := List.eq_nil_of_length_eq_zero (Nat.le_zero.mp hlen)
      subst this
      exact noGap_nil
  | _ + 1, [], _, _ => noGap_nil
  | fuel + 1, c :: rest, hlen, h => by
      have hlen' : rest.length ≤ fuel := by
        simpa using Nat.succ_le_succ_iff.mp (by simpa using hlen)
      by_cases hgt : c = '>'
      · cases hm : wsThenTag rest with
        | some r2 =>
            obtain ⟨w, hw1, hwne, _⟩ := wsThenTag_decomp hm
            have hr2len : r2.length ≤ fuel := by
              have : rest.length = w.length + (r2.length + 1) := by
                simp [hw1]
              omega
            have hsuf : ('<' :: r2) <:+ rest := ⟨w, hw1.symm⟩
            have hr2 : wsNormal r2 :=
              wsNormal_cons (wsNormal_mono (wsNormal_cons h) hsuf.isInfix)
            have ih := betweenTagsF_noGap fuel r2 hr2len hr2
            simp only [betweenTagsF, if_pos hgt, hm]
            intro x hx hinf
            rcases List.infix_cons_iff.mp hinf with hpre | hinf2
            · obtain ⟨t, ht⟩ := hpre
              injection ht with _ ht2
              injection ht2 with h2 _
              rw [h2] at hx
              exact absurd hx (by decide)
            · rcases List.infix_cons_iff.mp hinf2 with hpre | hinf3
              · obtain ⟨t, ht⟩ := hpre
                injection ht with h1 _
                exact absurd h1 (by decide)
              · exact ih x hx hinf3
        | none =>
            have ih := betweenTagsF_noGap fuel rest hlen' (wsNormal_cons h)
            simp only [betweenTagsF, if_pos hgt, hm]
            intro x hx hinf
            rcases List.infix_cons_iff.mp hinf with hpre | hinf2
            · obtain ⟨t, ht⟩ := hpre
              injection ht with _ ht2
              -- the output after `c` starts with `x` then `<`
              have ht2' : x :: '<' :: t = betweenTagsF fuel rest := ht2
              cases rest with
              | nil => cases fuel <;> simp [betweenTagsF] at ht2'
              | cons x0 rest' =>
                  have hWhead := betweenTagsF_head? fuel (x0 :: rest')
                  rw [← ht2'] at hWhead
                  simp only [List.head?_cons] at hWhead
                  injection hWhead with hx0
                  have hx0w : isWs x0 = true := hx0 ▸ hx
                  have hx0gt : ¬ x0 = '>' := by
                    intro hh
                    rw [hh] at hx0w
                    exact absurd hx0w (by decide)
                  cases fuel with
                  | zero => exact absurd hlen' (by simp)
                  | succ f' =>
                      rw [show betweenTagsF (f' + 1) (x0 :: rest') =
                            x0 :: betweenTagsF f' rest' by
                          simp only [betweenTagsF, if_neg hx0gt]] at ht2'
                      injection ht2' with _ ht3
                      have ht3' : '<' :: t = betweenTagsF f' rest' := ht3
                      have hWhead' := betweenTagsF_head? f' rest'
                      rw [← ht3'] at hWhead'
                      simp only [List.head?_cons] at hWhead'
                      cases rest' with
                      | nil => simp at hWhead'
                      | cons y rest'' =>
                          injection hWhead' with hy
                          have hwtt : wsThenTag (x0 :: y :: rest'') = some rest'' := by
                            simp [wsThenTag, if_pos hx0w, ← hy, wsGap]
                          rw [hwtt] at hm
                          exact Option.noConfusion hm
            · exact ih x hx hinf2
      · have ih := betweenTagsF_noGap fuel rest hlen' (wsNormal_cons h)
        simp only [betweenTagsF, if_neg hgt]
        intro x hx hinf
        rcases List.infix_cons_iff.mp hinf with hpre | hinf2
        · obtain ⟨t, ht⟩ := hpre
          injection ht with h1 _
          exact hgt h1.symm
        · exact ih x hx hinf2

theorem betweenTagsF_id : ∀ (fuel : ℕ) (l : List Char), wsNormal l →
    noGap l → betweenTagsF fuel l = l
  | 0, _, _, _ => rfl
  | _ + 1, [], _, _ => rfl
  | fuel + 1, c :: rest, h, hg => by
      by_cases hgt : c = '>'
      · cases hm : wsThenTag rest with
        | some r2 =>
            obtain ⟨w, hw1, hwne, hw3⟩ := wsThenTag_decomp hm
            exfalso
            cases w with
            | nil => exact hwne rfl
            | cons w0 w' =>
                cases w' with
                | nil =>
                    have hwin : ['>', w0, '<'] <+: c :: rest := by
                      rw [hgt, hw1]
                      exact ⟨r2, rfl⟩
                    exact hg w0 (hw3 w0 (by simp)) hwin.isInfix
                | cons w1 w'' =>
                    have hch : List.Chain' wsSep ((w0 :: w1 :: w'') ++ '<' :: r2) := by
                      rw [← hw1]
                      exact (List.chain'_cons'.mp h.2).2
                    have hsep : wsSep w0 w1 :=
                      (List.chain'_cons.mp (List.chain'_append.mp hch).1).1
                    exact hsep ⟨hw3 w0 (by simp), hw3 w1 (by simp)⟩
        | none =>
            have ih := betweenTagsF_id fuel rest (wsNormal_cons h) (noGap_of_cons hg)
            simp only [betweenTagsF, if_pos hgt, hm, ih]
      · have ih := betweenTagsF_id fuel rest (wsNormal_cons h) (noGap_of_cons hg)
        simp only [betweenTagsF, if_neg hgt, ih]

theorem dropWhile_eq_self_of_head (p : Char → Bool) (l : List Char)
    (h : ∀ c ∈ l.head?, p c = false) : l.dropWhile p = l := by
  cases l with
  | nil => rfl
  | cons a rest =>
      rw [List.dropWhile_cons, if_neg (by simp [h a rfl])]

theorem head?_dropWhile_not (p : Char → Bool) (l : List Char) :
    ∀ c ∈ (l.dropWhile p).head?, p c = false := by
  induction l with
  | nil => simp
  | cons a rest ih =>
      intro c hc
      rw [List.dropWhile_cons] at hc
      by_cases h : p a
      · rw [if_pos (by simp [h])] at hc
        exact ih c hc
      · rw [if_neg (by simp [h])] at hc
        simp only [List.head?_cons, Option.mem_def, Option.some.injEq] at hc
        rw [← hc]
        simpa using h

theorem trimChars_infix (l : List Char) : trimChars l <:+: l := by
  have h1 : l.dropWhile isWs <:+ l := List.dropWhile_suffix isWs
  have h2 : (l.dropWhile isWs).reverse.dropWhile isWs <:+
      (l.dropWhile isWs).reverse := List.dropWhile_suffix isWs
  have h3 : trimChars l <+: l.dropWhile isWs := by
    refine List.reverse_suffix.mp ?_
    simp only [trimChars, List.reverse_reverse]
    exact h2
  exact h3.isInfix.trans h1.isInfix

theorem trimChars_trimmed (l : List Char) : isTrimmed (trimChars l) := by
  constructor
  · intro c hc
    simp only [trimChars] at hc
    rw [List.head?_reverse] at hc
    have hZne : (l.dropWhile isWs).reverse.dropWhile isWs ≠ [] := by
      rintro h0
      rw [h0] at hc
      simp at hc
    have hsuf : (l.dropWhile isWs).reverse.dropWhile isWs <:+
        (l.dropWhile isWs).reverse := List.dropWhile_suffix isWs
    obtain ⟨t, ht⟩ := hsuf
    have hlast := List.getLast?_append_of_ne_nil t hZne
    rw [ht] at hlast
    rw [← hlast, List.getLast?_reverse] at hc
    exact head?_dropWhile_not isWs l c hc
  · intro c hc
    simp only [trimChars] at hc
    rw [List.getLast?_reverse] at hc
    exact head?_dropWhile_not isWs _ c hc

theorem trimChars_id {l : List Char} (h : isTrimmed l) : trimChars l = l := by
  have h1 : l.dropWhile isWs = l := dropWhile_eq_self_of_head isWs l h.1
  have h2 : l.reverse.dropWhile isWs = l.reverse := by
    refine dropWhile_eq_self_of_head isWs l.reverse ?_
    intro c hc
    rw [List.head?_reverse] at hc
    exact h.2 c hc
  simp only [trimChars, h1, h2, List.reverse_reverse]

theorem occursIn_spec (pat l : List Char) :
    occursIn pat l = true ↔ pat <:+: l := by
  induction l with
  | nil =>
      constructor
      · intro h
        cases pat with
        | nil => exact List.nil_infix
        | cons a t => simp [occursIn] at h
      · intro h
        have hle := h.length_le
        cases pat with
        | nil => rfl
        | cons a t => simp at hle
  | cons a rest ih =>
      simp only [occursIn, Bool.or_eq_true, List.isPrefixOf_iff_prefix, ih]
      exact (List.infix_cons_iff).symm

theorem replaceFirst_of_not_occurs (pat repl l : List Char)
    (h : occursIn pat l = false) : replaceFirst pat repl l = l := by
  induction l with
  | nil => rfl
  | cons a rest ih =>
      rw [occursIn] at h
      obtain ⟨h1, h2⟩ := Bool.or_eq_false_iff.mp h
      rw [replaceFirst, if_neg (by simp [h1]), ih h2]

theorem replaceFirst_decomp (pat repl l : List Char) (hpat : pat ≠ [])
    (h : occursIn pat l = true) :
    ∃ a b, l = a ++ pat ++ b ∧ replaceFirst pat repl l = a ++ repl ++ b := by
  induction l with
  | nil =>
      exfalso
      cases pat with
      | nil => exact hpat rfl
      | cons x t => simp [occursIn] at h
  | cons c rest ih =>
      cases hp : pat.isPrefixOf (c :: rest) with
      | true =>
          obtain ⟨t, ht⟩ := List.isPrefixOf_iff_prefix.mp hp
          refine ⟨[], t, by simp [← ht], ?_⟩
          rw [replaceFirst, if_pos hp, ← ht, List.drop_left]
          simp
      | false =>
          rw [occursIn, hp] at h
          simp only [Bool.false_or] at h
          obtain ⟨a, b, hl, hr⟩ := ih h
          refine ⟨c :: a, b, by simp [hl], ?_⟩
          rw [replaceFirst, if_neg (by simp [hp]), hr]
          simp

theorem prefix_append_cases {x u v : List Char} (h : x <+: u ++ v) :
    x <+: u ∨ ∃ y, x = u ++ y ∧ y <+: v := by
  induction u generalizing x with
  | nil =>
      right
      exact ⟨x, by simp, by simpa using h⟩
  | cons a u' ih =>
      cases x with
      | nil => exact Or.inl List.nil_prefix
      | cons b x' =>
          obtain ⟨t, ht⟩ := h
          rw [List.cons_append] at ht
          injection ht with hb ht'
          rcases ih ⟨t, ht'⟩ with h1 | ⟨y, hy1, hy2⟩
          · left
            obtain ⟨t2, ht2⟩ := h1
            exact ⟨t2, by simp [hb, ht2]⟩
          · right
            exact ⟨y, by simp [hb, hy1], hy2⟩

theorem infix_append_cases {x u v : List Char} (h : x <:+: u ++ v) :
    x <:+: u ∨ x <:+: v ∨
      ∃ x₁ x₂, x = x₁ ++ x₂ ∧ x₁ ≠ [] ∧ x₂ ≠ [] ∧ x₁ <:+ u ∧ x₂ <+: v := by
  induction u generalizing x with
  | nil => exact Or.inr (Or.inl (by simpa using h))
  | cons a u' ih =>
      rcases List.infix_cons_iff.mp h with hpre | hinf
      · cases x with
        | nil => exact Or.inl List.nil_infix
        | cons b x' =>
            obtain ⟨t, ht⟩ := hpre
            rw [List.cons_append] at ht
            injection ht with hb ht'
            rcases prefix_append_cases ⟨t, ht'⟩ with h1 | ⟨y, hy1, hy2⟩
            · left
              obtain ⟨t2, ht2⟩ := h1
              exact List.IsPrefix.isInfix
                (⟨t2, by simp [hb, ht2]⟩ : (b :: x') <+: (a :: u'))
            · by_cases hy : y = []
              · subst hy
                left
                refine List.IsPrefix.isInfix ⟨[], ?_⟩
                simp [hb, hy1]
              · right
                right
                refine ⟨a :: u', y, ?_, by simp, hy, List.suffix_refl _, hy2⟩
                simp [hb, hy1]
      · rcases ih hinf with h1 | h2 | ⟨x₁, x₂, hx, h1ne, h2ne, hs, hp⟩
        · exact Or.inl (h1.trans (List.suffix_cons a u').isInfix)
        · exact Or.inr (Or.inl h2)
        · exact Or.inr (Or.inr ⟨x₁, x₂, hx, h1ne, h2ne,
            hs.trans (List.suffix_cons a u'), hp⟩)

/-- Splitting a three-character list across a nonempty-nonempty append. -/
theorem split3 {w₁ w₂ : List Char} {p q r : Char}
    (h : w₁ ++ w₂ = [p, q, r]) (h1 : w₁ ≠ []) (h2 : w₂ ≠ []) :
    (w₁ = [p] ∧ w₂ = [q, r]) ∨ (w₁ = [p, q] ∧ w₂ = [r]) := by
  cases w₁ with
  | nil => exact absurd rfl h1
  | cons a w₁' =>
      cases w₁' with
      | nil =>
          injection h with e1 e2
          exact Or.inl ⟨by rw [e1], e2⟩
      | cons b w₁'' =>
          cases w₁'' with
          | nil =>
              injection h with e1 e2
              injection e2 with e3 e4
              exact Or.inr ⟨by rw [e1, e3], e4⟩
          | cons c w₁''' =>
              injection h with _ e2
              injection e2 with _ e4
              injection e4 with _ e6
              exact absurd (List.append_eq_nil.mp e6).2 h2

theorem svgOpenWithXmlns_eq : svgOpenWithXmlns = svgOpen ++ ' ' :: xmlnsAttr := by
  decide

theorem wsChainOk_iff : ∀ l : List Char,
    wsChainOk l = true ↔ List.Chain' wsSep l
  | [] => by simp [wsChainOk]
  | [c] => by simp [wsChainOk]
  | a :: b :: rest => by
      have ih := wsChainOk_iff (b :: rest)
      rw [wsChainOk, List.chain'_cons, Bool.and_eq_true]
      constructor
      · rintro ⟨h1, h2⟩
        refine ⟨?_, ih.mp h2⟩
        intro hcon
        rw [hcon.1, hcon.2] at h1
        simp at h1
      · rintro ⟨h1, h2⟩
        refine ⟨?_, ih.mpr h2⟩
        cases hab : (isWs a && isWs b) with
        | false => simp [hab]
        | true =>
            simp only [Bool.and_eq_true] at hab
            exact absurd hab h1

theorem wsNormal_splice {a b : List Char}
    (h : wsNormal (a ++ (svgOpen ++ b))) :
    wsNormal (a ++ (svgOpenWithXmlns ++ b)) := by
  obtain ⟨hmem, hch⟩ := h
  constructor
  · intro c hc hw
    rcases List.mem_append.mp hc with hc | hc
    · exact hmem c (List.mem_append.mpr (Or.inl hc)) hw
    · rcases List.mem_append.mp hc with hc | hc
      · exact (by decide : ∀ c ∈ svgOpenWithXmlns, isWs c = true → c = ' ')
          c hc hw
      · exact hmem c
          (List.mem_append.mpr (Or.inr (List.mem_append.mpr (Or.inr hc)))) hw
  · obtain ⟨hA, hSB, _⟩ := List.chain'_append.mp hch
    obtain ⟨_, hB, _⟩ := List.chain'_append.mp hSB
    refine List.chain'_append.mpr ⟨hA, List.chain'_append.mpr
      ⟨(wsChainOk_iff svgOpenWithXmlns).mp (by decide), hB, ?_⟩, ?_⟩
    · intro x hx y _
      rw [show svgOpenWithXmlns.getLast? = some '"' from by decide] at hx
      simp only [Option.mem_def, Option.some.injEq] at hx
      intro hcon
      rw [← hx] at hcon
      exact absurd hcon.1 (by decide)
    · intro x _ y hy
      rw [List.head?_append_of_ne_nil _ (by decide : svgOpenWithXmlns ≠ []),
        show svgOpenWithXmlns.head? = some '<' from by decide] at hy
      simp only [Option.mem_def, Option.some.injEq] at hy
      intro hcon
      rw [← hy] at hcon
      exact absurd hcon.2 (by decide)

theorem noGap_splice {a b : List Char}
    (h : noGap (a ++ (svgOpen ++ b))) :
    noGap (a ++ (svgOpenWithXmlns ++ b)) := by
  intro c hc hinf
  have hsvg : svgOpen = '<' :: 's' :: 'v' :: 'g' :: [] := by decide
  rcases infix_append_cases hinf with h1 | h2 | ⟨x₁, x₂, hx, h1ne, h2ne, hs, hp⟩
  · exact h c hc (h1.trans (List.prefix_append a _).isInfix)
  · rcases infix_append_cases h2 with h3 | h4 | ⟨x₁, x₂, hx, h1ne, h2ne, hs, hp⟩
    · exact absurd (h3.subset (by simp : '>' ∈ ['>', c, '<']))
        (by decide : '>' ∉ svgOpenWithXmlns)
    · exact h c hc (h4.trans ((List.suffix_append svgOpen b).trans
        (List.suffix_append a _)).isInfix)
    · rcases split3 hx.symm h1ne h2ne with ⟨he1, _⟩ | ⟨he1, _⟩
      · subst he1
        exact absurd (hs.subset (by simp : '>' ∈ ['>']))
          (by decide : '>' ∉ svgOpenWithXmlns)
      · subst he1
        exact absurd (hs.subset (by simp : '>' ∈ ['>', c]))
          (by decide : '>' ∉ svgOpenWithXmlns)
  · rcases split3 hx.symm h1ne h2ne with ⟨he1, he2⟩ | ⟨he1, he2⟩
    · subst he1 he2
      obtain ⟨t, ht⟩ := hp
      have hhead : (svgOpenWithXmlns ++ b).head? = some '<' := by
        rw [List.head?_append_of_ne_nil _ (by decide : svgOpenWithXmlns ≠ [])]
        decide
      rw [← ht] at hhead
      simp only [List.cons_append, List.head?_cons] at hhead
      injection hhead with hc'
      rw [hc'] at hc
      exact absurd hc (by decide)
    · subst he1 he2
      obtain ⟨a', ha'⟩ := hs
      refine h c hc ⟨a', 's' :: 'v' :: 'g' :: b, ?_⟩
      rw [← ha', hsvg]
      simp

theorem isTrimmed_splice {a b : List Char}
    (h : isTrimmed (a ++ (svgOpen ++ b))) :
    isTrimmed (a ++ (svgOpenWithXmlns ++ b)) := by
  constructor
  · intro c hc
    cases a with
    | nil =>
        simp only [List.nil_append] at hc
        rw [List.head?_append_of_ne_nil _ (by decide : svgOpenWithXmlns ≠ []),
          show svgOpenWithXmlns.head? = some '<' from by decide] at hc
        simp only [Option.mem_def, Option.some.injEq] at hc
        rw [← hc]
        decide
    | cons a0 a' =>
        rw [List.head?_append_of_ne_nil _ (by simp : (a0 :: a') ≠ [])] at hc
        refine h.1 c ?_
        rw [List.head?_append_of_ne_nil _ (by simp : (a0 :: a') ≠ [])]
        exact hc
  · intro c hc
    cases b with
    | nil =>
        rw [List.append_nil, List.getLast?_append_of_ne_nil _
            (by decide : svgOpenWithXmlns ≠ []),
          show svgOpenWithXmlns.getLast? = some '"' from by decide] at hc
        simp only [Option.mem_def, Option.some.injEq] at hc
        rw [← hc]
        decide
    | cons b0 b' =>
        rw [List.getLast?_append_of_ne_nil _
            (by simp : (svgOpenWithXmlns ++ b0 :: b') ≠ []),
          List.getLast?_append_of_ne_nil _ (by simp : (b0 :: b') ≠ [])] at hc
        refine h.2 c ?_
        rw [List.getLast?_append_of_ne_nil _
            (by simp : (svgOpen ++ b0 :: b') ≠ []),
          List.getLast?_append_of_ne_nil _ (by simp : (b0 :: b') ≠ [])]
        exact hc

theorem stage4_invariants (y : List Char) :
    wsNormal (trimChars (removeWhitespaceBetweenTags (collapseWhitespace y))) ∧
    noGap (trimChars (removeWhitespaceBetweenTags (collapseWhitespace y))) ∧
    isTrimmed (trimChars (removeWhitespaceBetweenTags (collapseWhitespace y))) := by
  have h2 := collapseWhitespace_wsNormal y
  have h3w := betweenTagsF_wsNormal (collapseWhitespace y).length _ h2
  have h3g := betweenTagsF_noGap (collapseWhitespace y).length _ le_rfl h2
  have htrim := trimChars_infix (removeWhitespaceBetweenTags (collapseWhitespace y))
  exact ⟨wsNormal_mono h3w htrim, noGap_infix h3g htrim, trimChars_trimmed _⟩

theorem ensureXmlns_invariants {l : List Char} (hw : wsNormal l) (hg : noGap l)
    (ht : isTrimmed l) :
    wsNormal (ensureXmlns l) ∧ noGap (ensureXmlns l) ∧
    isTrimmed (ensureXmlns l) ∧ ensureXmlns (ensureXmlns l) = ensureXmlns l := by
  by_cases hocc : occursIn xmlnsAttr l = true
  · have he : ensureXmlns l = l := by rw [ensureXmlns, if_pos hocc]
    rw [he]
    exact ⟨hw, hg, ht, he⟩
  · have hocc' : occursIn xmlnsAttr l = false := by simpa using hocc
    by_cases hsvg : occursIn svgOpen l = true
    · obtain ⟨a, b, hl, hr⟩ :=
        replaceFirst_decomp svgOpen svgOpenWithXmlns l (by decide) hsvg
      rw [List.append_assoc] at hl hr
      have he : ensureXmlns l = a ++ (svgOpenWithXmlns ++ b) := by
        rw [ensureXmlns, if_neg (by simp [hocc']), hr]
      rw [hl] at hw hg ht
      rw [he]
      refine ⟨wsNormal_splice hw, noGap_splice hg, isTrimmed_splice ht, ?_⟩
      have hocc2 : occursIn xmlnsAttr (a ++ (svgOpenWithXmlns ++ b)) = true :=
        (occursIn_spec _ _).mpr
          ⟨a ++ (svgOpen ++ [' ']), b, by simp [svgOpenWithXmlns_eq]⟩
      rw [ensureXmlns, if_pos hocc2]
    · have hsvg' : occursIn svgOpen l = false := by simpa using hsvg
      have he : ensureXmlns l = l := by
        rw [ensureXmlns, if_neg (by simp [hocc']),
          replaceFirst_of_not_occurs _ _ _ hsvg']
      rw [he]
      exact ⟨hw, hg, ht, he⟩

theorem optimizeSVG_second_pass (y O : List Char)
    (hO : O = ensureXmlns (trimChars (removeWhitespaceBetweenTags
      (collapseWhitespace y)))) :
    collapseWhitespace O = O ∧ removeWhitespaceBetweenTags O = O ∧
    trimChars O = O ∧ ensureXmlns O = O := by
  obtain ⟨h4w, h4g, h4t⟩ := stage4_invariants y
  obtain ⟨hw, hg, ht, he⟩ := ensureXmlns_invariants h4w h4g h4t
  subst hO
  exact ⟨collapseWhitespace_id _ hw, betweenTagsF_id _ _ hw hg,
    trimChars_id ht, he⟩

/-- C10 counterexample: `optimizeSVG` is not idempotent.  Removing the
inner comment of `<!<!--x-->--y-->` reconstitutes a brand-new complete
comment `<!--y-->`, which only a second pass removes. -/
theorem c10_counterexample :
    optimizeSVG (optimizeSVG "<!<!--x-->--y-->") ≠
      optimizeSVG "<!<!--x-->--y-->" := by decide

/-- C10 (amended): a second `optimizeSVG` pass changes nothing provided
the first pass's output contains no removable comment (comment removal
leaves it unchanged) — in particular for every input whose comments are
simple and non-overlapping.  The whitespace-collapsing, tag-gap,
trimming and xmlns steps of a second pass are always the identity. -/
theorem c10_amended (s : String)
    (h : removeComments (optimizeSVG s).data = (optimizeSVG s).data) :
    optimizeSVG (optimizeSVG s) = optimizeSVG s := by
  have hempty : ∀ t : String, t.data = [] → optimizeSVG t = t := by
    intro t ht
    have ht' : t = "" := by
      cases t with
      | mk d =>
          have hd : d = [] := ht
          rw [hd]
    rw [ht']
    rfl
  by_cases hs : s.data = []
  · rw [hempty s hs, hempty s hs]
  · have hdata : (optimizeSVG s).data = ensureXmlns (trimChars
        (removeWhitespaceBetweenTags (collapseWhitespace
          (removeComments s.data)))) := by
      rw [optimizeSVG, if_neg hs]
    by_cases hOnil : (optimizeSVG s).data = []
    · exact hempty _ hOnil
    · obtain ⟨h1, h2, h3, h4⟩ := optimizeSVG_second_pass
        (removeComments s.data) (optimizeSVG s).data hdata
      have houter : optimizeSVG (optimizeSVG s) = ⟨ensureXmlns (trimChars
          (removeWhitespaceBetweenTags (collapseWhitespace
            (removeComments (optimizeSVG s).data))))⟩ := by
        conv_lhs => rw [optimizeSVG]
        rw [if_neg hOnil]
      rw [houter, h, h1, h2, h3, h4]

theorem c10_amended_witness :
    removeComments (optimizeSVG "<svg> <!-- note --> <rect/> </svg>").data =
      (optimizeSVG "<svg> <!-- note --> <rect/> </svg>").data ∧
    optimizeSVG (optimizeSVG "<svg> <!-- note --> <rect/> </svg>") =
      optimizeSVG "<svg> <!-- note --> <rect/> </svg>" :=
  ⟨by decide, c10_amended ("<svg> <!-- note --> <rect/> </svg>" : String)
    (by decide)⟩

/-! ### Theorems about the worker protocol and the batch loop -/

theorem eventsFor_id (oracle : FileRec → Outcome) (f : FileRec) :
    ∀ e ∈ eventsFor oracle f, eventId e = f.id := by
  intro e he
  rw [eventsFor] at he
  rcases List.mem_append.mp he with he | he
  · obtain ⟨p, _, rfl⟩ := List.mem_map.mp he
    rfl
  · simp only [List.mem_singleton] at he
    subst he
    cases hf : (oracle f).final <;> simp [terminalEvent, hf, eventId]

theorem traceOf_append (oracle : FileRec → Outcome) (u v : List FileRec) :
    traceOf oracle (u ++ v) = traceOf oracle u ++ traceOf oracle v := by
  induction u with
  | nil => rfl
  | cons f u' ih => simp [traceOf, ih]

theorem runLoop_trace (oracle : FileRec → Outcome) :
    ∀ l st : List FileRec, (runLoop oracle l st).2 = traceOf oracle l
  | [], _ => rfl
  | f :: rest, st => by
      by_cases h : f.status = FileStatus.processing <;>
        simp [runLoop, traceOf, h, runLoop_trace oracle rest]

theorem traceOf_event_id (oracle : FileRec → Outcome) :
    ∀ l : List FileRec, ∀ e ∈ traceOf oracle l,
      eventId e ∈ l.map FileRec.id
  | [], e, he => absurd he (by simp [traceOf])
  | f :: rest, e, he => by
      rw [traceOf] at he
      rcases List.mem_append.mp he with he | he
      · by_cases h : f.status = FileStatus.processing
        · rw [if_pos h] at he
          simp [eventsFor_id oracle f e he]
        · rw [if_neg h] at he
          simp at he
      · have := traceOf_event_id oracle rest e he
        simp only [List.map_cons, List.mem_cons]
        exact Or.inr this

theorem terminal_mem_traceOf (oracle : FileRec → Outcome)
    (u v : List FileRec) (f : FileRec)
    (hf : f.status = FileStatus.processing) :
    terminalEvent oracle f ∈ traceOf oracle (u ++ f :: v) := by
  rw [traceOf_append]
  refine List.mem_append.mpr (Or.inr ?_)
  rw [traceOf, if_pos hf]
  refine List.mem_append.mpr (Or.inl ?_)
  rw [eventsFor]
  exact List.mem_append.mpr (Or.inr (by simp))

/-- C3: the batch loop settles files strictly in snapshot order.  The
trace splits into a part containing file `i`'s terminal event without any
event of a later file `j`, followed by the rest, which contains `j`'s
events; so nothing of file `j` is observed before file `i` settles. -/
theorem c3_sequential_processing (oracle : FileRec → Outcome)
    (u v w : List FileRec) (fi fj : FileRec) (st : List FileRec)
    (hi : fi.status = FileStatus.processing)
    (hj : fj.status = FileStatus.processing)
    (hid : fj.id ∉ (u ++ [fi]).map FileRec.id) :
    ∃ t₁ t₂,
      (runLoop oracle (u ++ fi :: v ++ fj :: w) st).2 = t₁ ++ t₂ ∧
      terminalEvent oracle fi ∈ t₁ ∧
      (∀ e ∈ t₁, eventId e ≠ fj.id) ∧
      terminalEvent oracle fj ∈ t₂ := by
  refine ⟨traceOf oracle (u ++ [fi]), traceOf oracle (v ++ fj :: w),
    ?_, ?_, ?_, ?_⟩
  · rw [runLoop_trace,
      show u ++ fi :: v ++ fj :: w = (u ++ [fi]) ++ (v ++ fj :: w) by simp,
      traceOf_append]
  · exact terminal_mem_traceOf oracle u [] fi hi
  · intro e he hcon
    have := traceOf_event_id oracle (u ++ [fi]) e he
    rw [hcon] at this
    exact hid this
  · exact terminal_mem_traceOf oracle v w fj hj

theorem c3_witness :
    (⟨"a", "a.png", none, FileStatus.processing, 0, none, none, none, none⟩ :
      FileRec).status = FileStatus.processing ∧
    (⟨"b", "b.png", none, FileStatus.processing, 0, none, none, none, none⟩ :
      FileRec).status = FileStatus.processing ∧
    (∃ t₁ t₂,
      (runLoop (fun _ => ⟨[10, 50], Except.ok ⟨"a.webp", 9, 5⟩⟩)
        ([] ++ (⟨"a", "a.png", none, FileStatus.processing, 0, none, none,
            none, none⟩ : FileRec) :: [] ++
          (⟨"b", "b.png", none, FileStatus.processing, 0, none, none, none,
            none⟩ : FileRec) :: [])
        []).2 = t₁ ++ t₂ ∧
      terminalEvent (fun _ => ⟨[10, 50], Except.ok ⟨"a.webp", 9, 5⟩⟩)
        ⟨"a", "a.png", none, FileStatus.processing, 0, none, none, none,
          none⟩ ∈ t₁ ∧
      (∀ e ∈ t₁, eventId e ≠
        (⟨"b", "b.png", none, FileStatus.processing, 0, none, none, none,
          none⟩ : FileRec).id) ∧
      terminalEvent (fun _ => ⟨[10, 50], Except.ok ⟨"a.webp", 9, 5⟩⟩)
        ⟨"b", "b.png", none, FileStatus.processing, 0, none, none, none,
          none⟩ ∈ t₂) :=
  ⟨rfl, rfl,
   c3_sequential_processing (fun _ => ⟨[10, 50], Except.ok ⟨"a.webp", 9, 5⟩⟩)
     [] [] [] _ _ [] rfl rfl (by decide)⟩

theorem lookup_removeTask_self (id : String)
    (tasks : List (String × WorkerTask)) :
    List.lookup id (removeTask id tasks) = none := by
  induction tasks with
  | nil => rfl
  | cons t rest ih =>
      rw [removeTask, List.filter_cons]
      by_cases h : (t.1 == id) = true
      · rw [if_neg (by simp [h])]
        exact ih
      · obtain ⟨k, v⟩ := t
        rw [if_pos (by simp [h])]
        have hk' : ¬ k = id := by simpa using h
        have hk : (id == k) = false :=
          beq_eq_false_iff_ne.mpr fun hh => hk' hh.symm
        simp only [List.lookup, hk]
        exact ih

/-- C4: the worker emits exactly one terminal message per convert request,
all its messages carry the request id; the manager deletes the pending
entry on a terminal message, so its id afterwards resolves to no task; and
any message whose id has no pending task leaves the state unchanged and is
ignored. -/
theorem c4_terminal_protocol :
    (∀ (id : String) (out : Outcome),
      ((workerRun id out).filter isTerminal).length = 1 ∧
      ∀ m ∈ workerRun id out, msgId m = id) ∧
    (∀ (tasks : List (String × WorkerTask)) (m : WorkerMsg),
      isTerminal m = true → List.lookup (msgId m) tasks ≠ none →
      List.lookup (msgId m) (handleMessage tasks m).1 = none) ∧
    (∀ (tasks : List (String × WorkerTask)) (m : WorkerMsg),
      List.lookup (msgId m) tasks = none →
      handleMessage tasks m = (tasks, ManagerAction.ignored)) := by
  refine ⟨fun id out => ⟨?_, ?_⟩, fun tasks m hterm hsome => ?_,
    fun tasks m hnone => ?_⟩
  · have hprog : (out.progresses.map (WorkerMsg.progress id)).filter
        isTerminal = [] := by
      induction out.progresses with
      | nil => rfl
      | cons p ps ih => simp [isTerminal, ih]
    rw [workerRun, List.filter_append, hprog]
    cases out.final <;> simp [isTerminal]
  · intro m hm
    rw [workerRun] at hm
    rcases List.mem_append.mp hm with hm | hm
    · obtain ⟨p, _, rfl⟩ := List.mem_map.mp hm
      rfl
    · simp only [List.mem_singleton] at hm
      subst hm
      cases out.final <;> rfl
  · cases hlk : List.lookup (msgId m) tasks with
    | none => exact absurd hlk hsome
    | some task =>
        cases m with
        | progress i p => simp [isTerminal] at hterm
        | result i r =>
            simp only [handleMessage, msgId] at hlk ⊢
            rw [hlk]
            exact lookup_removeTask_self i tasks
        | error i e =>
            simp only [handleMessage, msgId] at hlk ⊢
            rw [hlk]
            exact lookup_removeTask_self i tasks
  · rw [handleMessage.eq_def, hnone]

theorem c4_witness :
    isTerminal (WorkerMsg.result "t1" ⟨"a.webp", 9, 5⟩) = true ∧
    List.lookup (msgId (WorkerMsg.result "t1" ⟨"a.webp", 9, 5⟩))
      [("t1", (⟨"a.png", 9⟩ : WorkerTask))] ≠ none ∧
    List.lookup (msgId (WorkerMsg.result "t1" ⟨"a.webp", 9, 5⟩))
      (handleMessage [("t1", (⟨"a.png", 9⟩ : WorkerTask))]
        (WorkerMsg.result "t1" ⟨"a.webp", 9, 5⟩)).1 = none :=
  ⟨rfl, by decide,
   c4_terminal_protocol.2.1 [("t1", ⟨"a.png", 9⟩)]
     (WorkerMsg.result "t1" ⟨"a.webp", 9, 5⟩) rfl (by decide)⟩

theorem find?_map_ite (id : String) (g : FileRec → FileRec)
    (hg : ∀ f, (g f).id = f.id) (x : String) (l : List FileRec) :
    List.find? (fun f => f.id == x)
        (l.map fun f => if f.id = id then g f else f) =
      (List.find? (fun f => f.id == x) l).map
        fun f => if f.id = id then g f else f := by
  induction l with
  | nil => rfl
  | cons a rest ih =>
      by_cases hax : a.id = x
      · have hax' : (a.id == x) = true := by simp [hax]
        have hpred : (((if a.id = id then g a else a) : FileRec).id == x)
            = true := by
          by_cases h : a.id = id
          · rw [if_pos h, hg, hax]
            simp
          · rw [if_neg h, hax]
            simp
        rw [List.map_cons]
        simp only [List.find?_cons, hpred, hax', cond_true, Option.map_some']
      · have hax' : (a.id == x) = false := by simp [hax]
        have hpred : (((if a.id = id then g a else a) : FileRec).id == x)
            = false := by
          by_cases h : a.id = id
          · rw [if_pos h, hg]
            simp [hax]
          · rw [if_neg h]
            simp [hax]
        rw [List.map_cons]
        simp only [List.find?_cons, hpred, hax', cond_false]
        exact ih

theorem find?_foldl_progress (id x : String) :
    ∀ (ps : List ℕ) (st : List FileRec),
      List.find? (fun f => f.id == x)
          (ps.foldl (fun s p => updateFileProgress id p s) st) =
        (List.find? (fun f => f.id == x) st).map
          fun f =>
            if f.id = id then { f with progress := ps.getLastD f.progress }
            else f
  | [], st => by
      cases h : List.find? (fun f => f.id == x) st with
      | none => simp [h]
      | some a =>
          simp only [List.foldl_nil, h, Option.map_some', List.getLastD_nil]
          split <;> rfl
  | p :: ps', st => by
      rw [List.foldl_cons, find?_foldl_progress id x ps',
        updateFileProgress,
        find?_map_ite id (fun f => { f with progress := p }) (fun _ => rfl)
          x st]
      cases h : List.find? (fun f => f.id == x) st with
      | none => rfl
      | some a =>
          simp only [Option.map_some', List.getLastD_cons]
          by_cases ha : a.id = id
          · simp only [if_pos ha]
          · simp only [if_neg ha]

theorem find?_applyOutcome_other (oracle : FileRec → Outcome) (f : FileRec)
    (x : String) (hfx : f.id ≠ x) (st : List FileRec) :
    List.find? (fun g => g.id == x) (applyOutcome oracle f st) =
      List.find? (fun g => g.id == x) st := by
  have hfold : List.find? (fun g => g.id == x)
      ((oracle f).progresses.foldl (fun s p => updateFileProgress f.id p s) st) =
      List.find? (fun g => g.id == x) st := by
    rw [find?_foldl_progress f.id x]
    cases h : List.find? (fun g => g.id == x) st with
    | none => rfl
    | some a =>
        have hax := List.find?_some h
        simp only [beq_iff_eq] at hax
        have ha : ¬ a.id = f.id := by
          rw [hax]
          exact fun hh => hfx hh.symm
        simp [ha]
  cases hf : (oracle f).final with
  | ok r =>
      simp only [applyOutcome, hf]
      rw [updateFileResult,
        find?_map_ite f.id (fun q => { q with status := FileStatus.done, progress := 100, result := some r }) (fun _ => rfl) x, hfold]
      cases h : List.find? (fun g => g.id == x) st with
      | none => rfl
      | some a =>
          have hax := List.find?_some h
          simp only [beq_iff_eq] at hax
          have ha : ¬ a.id = f.id := by
            rw [hax]
            exact fun hh => hfx hh.symm
          simp [ha]
  | error e =>
      simp only [applyOutcome, hf]
      rw [updateFileError,
        find?_map_ite f.id (fun q => { q with status := FileStatus.error, error := some e }) (fun _ => rfl) x, hfold]
      cases h : List.find? (fun g => g.id == x) st with
      | none => rfl
      | some a =>
          have hax := List.find?_some h
          simp only [beq_iff_eq] at hax
          have ha : ¬ a.id = f.id := by
            rw [hax]
            exact fun hh => hfx hh.symm
          simp [ha]

theorem find?_runLoop_untouched (oracle : FileRec → Outcome) (x : String) :
    ∀ (l st : List FileRec), (∀ f ∈ l, f.id ≠ x) →
      List.find? (fun f => f.id == x) (runLoop oracle l st).1 =
        List.find? (fun f => f.id == x) st
  | [], _, _ => rfl
  | f :: rest, st, h => by
      by_cases hp : f.status = FileStatus.processing
      · simp only [runLoop, if_pos hp]
        rw [find?_runLoop_untouched oracle x rest _
          (fun g hg => h g (List.mem_cons_of_mem _ hg))]
        exact find?_applyOutcome_other oracle f x (h f (by simp)) st
      · simp only [runLoop, if_neg hp]
        exact find?_runLoop_untouched oracle x rest st
          (fun g hg => h g (List.mem_cons_of_mem _ hg))

theorem runLoop_state_append (oracle : FileRec → Outcome) :
    ∀ (a b st : List FileRec),
      (runLoop oracle (a ++ b) st).1 =
        (runLoop oracle b (runLoop oracle a st).1).1
  | [], _, _ => rfl
  | f :: a', b, st => by
      by_cases hp : f.status = FileStatus.processing
      · simp only [List.cons_append, runLoop, if_pos hp]
        exact runLoop_state_append oracle a' b _
      · simp only [List.cons_append, runLoop, if_neg hp]
        exact runLoop_state_append oracle a' b st

/-- C6: a failed conversion turns exactly that record's status to `error`
with the message stored, leaves its progress at the last reported value
(neither reset nor forced to 100), and the loop still settles every later
processing file; moreover `updateFileError` never touches any progress
field. -/
theorem c6_error_keeps_progress_and_continues (oracle : FileRec → Outcome)
    (u v : List FileRec) (fi : FileRec) (st : List FileRec) (msg : String)
    (r : FileRec)
    (hi : fi.status = FileStatus.processing)
    (herr : (oracle fi).final = Except.error msg)
    (hu : ∀ f ∈ u, f.id ≠ fi.id)
    (hv : ∀ f ∈ v, f.id ≠ fi.id)
    (hfind : List.find? (fun g => g.id == fi.id) st = some r) :
    List.find? (fun g => g.id == fi.id)
        ((runLoop oracle (u ++ fi :: v) st).1) =
      some { r with status := FileStatus.error, error := some msg,
                    progress := (oracle fi).progresses.getLastD r.progress } ∧
    (∀ fj ∈ v, fj.status = FileStatus.processing →
      terminalEvent oracle fj ∈ (runLoop oracle (u ++ fi :: v) st).2) ∧
    (∀ (files : List FileRec) (id m : String),
      (updateFileError id m files).map FileRec.progress =
        files.map FileRec.progress) := by
  have hrid : r.id = fi.id := by
    have := List.find?_some hfind
    simpa using this
  refine ⟨?_, ?_, ?_⟩
  · rw [runLoop_state_append oracle u (fi :: v) st]
    have h1 : List.find? (fun g => g.id == fi.id) (runLoop oracle u st).1 =
        some r := by
      rw [find?_runLoop_untouched oracle fi.id u st hu, hfind]
    simp only [runLoop, if_pos hi]
    rw [find?_runLoop_untouched oracle fi.id v _ hv]
    simp only [applyOutcome, herr]
    rw [updateFileError,
      find?_map_ite fi.id (fun q => { q with status := FileStatus.error, error := some msg }) (fun _ => rfl) fi.id,
      find?_foldl_progress fi.id fi.id, h1]
    simp only [Option.map_some', if_pos hrid]
  · intro fj hj hjp
    rw [runLoop_trace]
    obtain ⟨v1, v2, rfl⟩ := List.append_of_mem hj
    rw [show u ++ fi :: (v1 ++ fj :: v2) = (u ++ fi :: v1) ++ fj :: v2
      by simp]
    exact terminal_mem_traceOf oracle (u ++ fi :: v1) v2 fj hjp
  · intro files id m
    induction files with
    | nil => rfl
    | cons a rest ih =>
        by_cases h : a.id = id <;>
          simp only [updateFileError, List.map_cons, if_pos, if_neg, h] <;>
          simp [updateFileError] at ih ⊢ <;>
          exact ih

theorem c6_witness :
    (⟨"a", "a.png", none, FileStatus.processing, 0, none, none, none, none⟩ :
      FileRec).status = FileStatus.processing ∧
    ((fun _ => ⟨[33], Except.error "decode failed"⟩ :
        FileRec → Outcome) ⟨"a", "a.png", none, FileStatus.processing, 0,
          none, none, none, none⟩).final = Except.error "decode failed" ∧
    List.find? (fun g => g.id ==
        (⟨"a", "a.png", none, FileStatus.processing, 0, none, none, none,
          none⟩ : FileRec).id)
      [(⟨"a", "a.png", none, FileStatus.processing, 0, none, none, none,
        none⟩ : FileRec)] = some ⟨"a", "a.png", none, FileStatus.processing,
        0, none, none, none, none⟩ ∧
    List.find? (fun g => g.id ==
        (⟨"a", "a.png", none, FileStatus.processing, 0, none, none, none,
          none⟩ : FileRec).id)
        ((runLoop (fun _ => ⟨[33], Except.error "decode failed"⟩)
          ([] ++ (⟨"a", "a.png", none, FileStatus.processing, 0, none, none,
            none, none⟩ : FileRec) :: [])
          [⟨"a", "a.png", none, FileStatus.processing, 0, none, none, none,
            none⟩]).1) =
      some { (⟨"a", "a.png", none, FileStatus.processing, 0, none, none,
                none, none⟩ : FileRec) with
             status := FileStatus.error, error := some "decode failed",
             progress := List.getLastD [33]
               (⟨"a", "a.png", none, FileStatus.processing, 0, none, none,
                 none, none⟩ : FileRec).progress } := by
  refine ⟨rfl, rfl, by decide, ?_⟩
  exact (c6_error_keeps_progress_and_continues
    (fun _ => ⟨[33], Except.error "decode failed"⟩) [] []
    ⟨"a", "a.png", none, FileStatus.processing, 0, none, none, none, none⟩
    [⟨"a", "a.png", none, FileStatus.processing, 0, none, none, none, none⟩]
    "decode failed"
    ⟨"a", "a.png", none, FileStatus.processing, 0, none, none, none, none⟩
    rfl rfl (by simp) (by simp) (by decide)).1


/-- C5: with `generate2x` enabled the expansion phase appends, after all
existing records, exactly one variant per pending record lacking custom
options; the variant's id is the original id with `-2x` appended, its
status is pending, its label inserts `@2x` before the last `.` of the
file name (appended when the name has no dot), its custom options carry
the global width/height doubled when those are set (a truthy value `n`
becomes `2 * n`, an absent one stays absent) with `generate2x` forced
off; when neither global dimension is set the conversion loop later
doubles the natural dimensions instead, and an original record (one
without custom options) keeps the global settings undoubled. -/
theorem c5_generate2x_expansion (s : GlobalSettings) (files : List FileRec)
    (f : FileRec) (naturalW naturalH : ℕ) (hs : s.generate2x = true) :
    expandPhase s files
      = files ++ (files.filter qualifies2x).map (mkVariant s) ∧
    (mkVariant s f).id = f.id ++ "-2x" ∧
    (mkVariant s f).status = FileStatus.pending ∧
    (mkVariant s f).customOptions
      = some ⟨doubleIfSet s.width, doubleIfSet s.height, some false⟩ ∧
    (∀ n : ℕ, n ≠ 0 → doubleIfSet (some n) = some (2 * n)) ∧
    doubleIfSet none = none ∧
    (∀ base ext : List Char, f.name.data = base ++ '.' :: ext →
      '.' ∉ ext →
      (mkVariant s f).label
        = some ⟨base ++ '@' :: '2' :: 'x' :: '.' :: ext⟩) ∧
    ('.' ∉ f.name.data → (mkVariant s f).label = some (f.name ++ "@2x")) ∧
    (s.width = none → s.height = none →
      resolveEffective s (mkVariant s f) naturalW naturalH
        = ⟨some (2 * naturalW), some (2 * naturalH), false⟩) ∧
    (f.customOptions = none →
      resolveEffective s f naturalW naturalH = s) := by
  refine ⟨?_, rfl, rfl, rfl, ?_, rfl, ?_, ?_, ?_, ?_⟩
  · simp [expandPhase, hs, expand2x]
  · intro n hn
    simp [doubleIfSet, hn]
  · intro base ext hname hext
    have h1 : lastIndexOf? '.' (base ++ '.' :: ext) = some base.length :=
      lastIndexOf?_append '.' base ext hext
    show some (insertAt2xLabel f.name) = _
    simp only [insertAt2xLabel, hname, h1, List.take_left, List.drop_left]
  · intro hnd
    have h1 : lastIndexOf? '.' f.name.data = none :=
      (lastIndexOf?_eq_none_iff '.' f.name.data).mpr hnd
    show some (insertAt2xLabel f.name) = _
    simp only [insertAt2xLabel, h1]
  · intro hw hh
    simp [resolveEffective, mkVariant, mergeOptions, hw, hh, doubleIfSet,
      truthyN]
  · intro hc
    simp only [resolveEffective, hc]

theorem c5_witness :
    (⟨none, none, true⟩ : GlobalSettings).generate2x = true ∧
    (expandPhase ⟨none, none, true⟩
        [⟨"a", "b.c", none, FileStatus.pending, 0, none, none, none, none⟩]
      = [⟨"a", "b.c", none, FileStatus.pending, 0, none, none, none,
          none⟩]
        ++ (List.filter qualifies2x
            [⟨"a", "b.c", none, FileStatus.pending, 0, none, none, none,
              none⟩]).map (mkVariant ⟨none, none, true⟩) ∧
     (mkVariant ⟨none, none, true⟩
        ⟨"a", "b.c", none, FileStatus.pending, 0, none, none, none,
          none⟩).id = "a" ++ "-2x" ∧
     (mkVariant ⟨none, none, true⟩
        ⟨"a", "b.c", none, FileStatus.pending, 0, none, none, none,
          none⟩).status = FileStatus.pending ∧
     (mkVariant ⟨none, none, true⟩
        ⟨"a", "b.c", none, FileStatus.pending, 0, none, none, none,
          none⟩).customOptions
       = some ⟨doubleIfSet none, doubleIfSet none, some false⟩ ∧
     (∀ n : ℕ, n ≠ 0 → doubleIfSet (some n) = some (2 * n)) ∧
     doubleIfSet none = none ∧
     (∀ base ext : List Char,
       ("b.c" : String).data = base ++ '.' :: ext → '.' ∉ ext →
       (mkVariant ⟨none, none, true⟩
          ⟨"a", "b.c", none, FileStatus.pending, 0, none, none, none,
            none⟩).label
         = some ⟨base ++ '@' :: '2' :: 'x' :: '.' :: ext⟩) ∧
     ('.' ∉ ("b.c" : String).data →
       (mkVariant ⟨none, none, true⟩
          ⟨"a", "b.c", none, FileStatus.pending, 0, none, none, none,
            none⟩).label = some (("b.c" : String) ++ "@2x")) ∧
     ((⟨none, none, true⟩ : GlobalSettings).width = none →
       (⟨none, none, true⟩ : GlobalSettings).height = none →
       resolveEffective ⟨none, none, true⟩
         (mkVariant ⟨none, none, true⟩
           ⟨"a", "b.c", none, FileStatus.pending, 0, none, none, none,
             none⟩) 3 4
         = ⟨some (2 * 3), some (2 * 4), false⟩) ∧
     ((⟨"a", "b.c", none, FileStatus.pending, 0, none, none, none, none⟩ :
        FileRec).customOptions = none →
       resolveEffective ⟨none, none, true⟩
         ⟨"a", "b.c", none, FileStatus.pending, 0, none, none, none,
           none⟩ 3 4 = ⟨none, none, true⟩)) :=
  ⟨rfl, c5_generate2x_expansion ⟨none, none, true⟩
    [⟨"a", "b.c", none, FileStatus.pending, 0, none, none, none, none⟩]
    ⟨"a", "b.c", none, FileStatus.pending, 0, none, none, none, none⟩
    3 4 rfl⟩

end ImageConverter
